import Mathlib

/-!
Shallow embedding of the Lead Enricher core.

The embedding translates the matching engine of the repository:
the domain normalizers that exist twice (once at the top of app.py and once
in loaders/normalize.py; the app.py copies shadow the imported ones and are
the ones executed), the alias-map builder, the domain-to-accounts index, the
per-lead classification loop, the duplicate grouper, and the enrichment run.

Modelling conventions:
* a Python string is a list of characters (also list of code points, which is
  how Python compares and lowercases strings);
* a tabular cell is an optional string; a missing cell (pandas NaN, Python
  None) is none; pandas astype(str) renders a missing cell as the text nan;
* pandas groupby uses its default sorting, so ngroup numbers groups in
  lexicographically sorted key order;
* case folding is ASCII case folding (the inputs of interest are ASCII).
-/

/-- Character strings, modelled as lists of characters. -/
abbrev Str : Type := List Char

/-- The character list of a string literal. -/
def lit (s : String) : Str := s.data

/-- A tabular cell: none models a missing value (pandas NaN / Python None). -/
abbrev Cell : Type := Option Str

/-- Whitespace characters removed by Python str.strip (ASCII portion). -/
def pySpace (c : Char) : Bool :=
  c == ' ' || c == '\t' || c == '\n' || c == '\r' || c == '\x0b' || c == '\x0c'

/-- Python str.lstrip. -/
def trimL (s : Str) : Str := s.dropWhile pySpace

/-- Python str.rstrip. -/
def trimR (s : Str) : Str := (s.reverse.dropWhile pySpace).reverse

/-- Python str.strip. -/
def trim (s : Str) : Str := trimL (trimR s)

/-- Python str.lower on one character (ASCII case folding). -/
def lowerChar (c : Char) : Char := Char.toLower c

/-- Python str.lower. -/
def lower (s : Str) : Str := s.map lowerChar

/-- Python str.split(sep) for a one-character separator. -/
def splitOnChar (sep : Char) : Str → List Str
  | [] => [[]]
  | c :: t =>
    match splitOnChar sep t with
    | [] => [[]]
    | h :: r => if c == sep then [] :: h :: r else (c :: h) :: r

/-- Python str.startswith: p is a leading segment of s. -/
def hasPre : Str → Str → Bool
  | [], _ => true
  | _ :: _, [] => false
  | a :: p, b :: s => a == b && hasPre p s

/-- Embeds re.sub on the anchored pattern matching one leading http:// or
https:// scheme: at most one removal, at the start of the string. -/
def stripScheme (d : Str) : Str :=
  if hasPre (lit "http://") d then d.drop 7
  else if hasPre (lit "https://") d then d.drop 8
  else d

/-- Embeds re.sub on the anchored pattern matching one leading www. label. -/
def stripWww (d : Str) : Str :=
  if hasPre (lit "www.") d then d.drop 4 else d

/-- The naive subdomain collapse both normalizers share: if the string contains
at least two dots, keep only the last two dot-separated labels
(Python: ".".join(d.split(".")[-2:])). -/
def collapseIfRequested (collapse : Bool) (d : Str) : Str :=
  if collapse && decide (2 ≤ d.count '.') then
    let parts := splitOnChar '.' d
    List.intercalate (lit ".") (parts.drop (parts.length - 2))
  else d

namespace App

/-- app.py extract_email_domain: absent on a missing cell, strip and lowercase,
absent when no at-sign occurs, else everything after the last at-sign,
stripped (possibly the empty string). -/
def extract_email_domain (email : Cell) : Cell :=
  match email with
  | none => none
  | some e =>
    let s := lower (trim e)
    if '@' ∈ s then some (trim ((splitOnChar '@' s).getLastD [])) else none

/-- app.py normalize_domain: guard on falsy input, strip and lowercase, strip
one leading scheme and one leading www. label, truncate at the first slash and
strip, absent if empty, then the optional subdomain collapse. -/
def normalize_domain (collapse : Bool) (domain : Cell) : Cell :=
  match domain with
  | none => none
  | some s =>
    if s.isEmpty then none
    else
      let d := lower (trim s)
      let d := stripScheme d
      let d := stripWww d
      let d := trim ((splitOnChar '/' d).headD [])
      if d.isEmpty then none else some (collapseIfRequested collapse d)

/-- app.py normalize_website_to_domain: absent on a missing cell, otherwise
delegate to normalize_domain. -/
def normalize_website_to_domain (collapse : Bool) (website : Cell) : Cell :=
  match website with
  | none => none
  | some s => normalize_domain collapse (some s)

end App

namespace NL

/-- loaders/normalize.py extract_email_domain: like the app.py variant, but
the domain is returned through a final truthiness guard, so an empty domain
after the last at-sign yields absent rather than the empty string. -/
def extract_email_domain (email : Cell) : Cell :=
  match email with
  | none => none
  | some e =>
    let s := lower (trim e)
    if '@' ∈ s then
      let parts := splitOnChar '@' s
      if parts.length < 2 then none
      else
        let dom := trim (parts.getLastD [])
        if dom.isEmpty then none else some dom
    else none

/-- loaders/normalize.py normalize_domain: like the app.py variant, but also
truncates at the first question mark and the first hash sign (each truncated
remainder stripped), with a final truthiness guard. -/
def normalize_domain (collapse : Bool) (domain : Cell) : Cell :=
  match domain with
  | none => none
  | some s =>
    let d := lower (trim s)
    if d.isEmpty then none
    else
      let d := stripScheme d
      let d := stripWww d
      let d := trim ((splitOnChar '/' d).headD [])
      let d := trim ((splitOnChar '?' d).headD [])
      let d := trim ((splitOnChar '#' d).headD [])
      if d.isEmpty then none
      else
        let d := collapseIfRequested collapse d
        if d.isEmpty then none else some d

/-- loaders/normalize.py normalize_website_to_domain. -/
def normalize_website_to_domain (collapse : Bool) (website : Cell) : Cell :=
  normalize_domain collapse website

end NL

namespace SpecRef

/-- Following the spec's words on the Domain Normalizer: lowercase and trim,
strip one leading http:// or https:// scheme, strip one leading www. label,
truncate at the first slash, question mark or hash sign in one step (the
truncated remainder trimmed of whitespace), absent if the result is empty,
then the documented collapse to the last two labels.  Stated for comparison
with the two normalizers of the code. -/
def normalizeDomain (collapse : Bool) (domain : Cell) : Cell :=
  match domain with
  | none => none
  | some s =>
    let d := lower (trim s)
    let d := stripScheme d
    let d := stripWww d
    let d := trim (d.takeWhile (fun c => !(c == '/' || c == '?' || c == '#')))
    if d.isEmpty then none else some (collapseIfRequested collapse d)

end SpecRef

/-- An account row: identifier, display name and raw website cells. -/
structure Account where
  accountId : Cell
  accountName : Cell
  website : Cell
deriving DecidableEq, Repr

/-- An alias row: input domain and canonical domain cells. -/
structure AliasRec where
  inputDomain : Cell
  canonicalDomain : Cell
deriving DecidableEq, Repr

/-- app.py safe_str: a missing value becomes the empty string. -/
def safe_str (c : Cell) : Str :=
  match c with
  | none => []
  | some s => s

/-- app.py build_alias_map: fold the alias records into a map, inserting a pair
only when both normalized sides are truthy (Python: if inp and can), later
records overwriting earlier ones. -/
def build_alias_map (collapse : Bool) (recs : List AliasRec) : Str → Option Str :=
  recs.foldl
    (fun m r =>
      match App.normalize_domain collapse r.inputDomain,
            App.normalize_domain collapse r.canonicalDomain with
      | some i, some c =>
        if i.isEmpty || c.isEmpty then m else fun k => if k = i then some c else m k
      | _, _ => m)
    (fun _ => none)

/-- Following the spec's words on the Alias Resolver: the canonical target of a
key is decided by the last alias record whose valid normalized input domain
equals the key.  Stated for comparison with build_alias_map. -/
def specAliasTarget (collapse : Bool) (k : Str) : List AliasRec → Option Str
  | [] => none
  | r :: rs =>
    match specAliasTarget collapse k rs with
    | some v => some v
    | none =>
      match App.normalize_domain collapse r.inputDomain,
            App.normalize_domain collapse r.canonicalDomain with
      | some i, some c =>
        if i.isEmpty || c.isEmpty then none else if i = k then some c else none
      | _, _ => none

/-- The canonicalize helper of the enrichment run: absent stays absent, a falsy
domain becomes absent, otherwise the alias map applies with identity fallback. -/
def canonicalize (aliasMap : Str → Option Str) (d : Cell) : Cell :=
  match d with
  | none => none
  | some s => if s.isEmpty then none else some ((aliasMap s).getD s)

/-- app.py DEFAULT_PERSONAL_DOMAINS (a set literal; membership only). -/
def DEFAULT_PERSONAL_DOMAINS : List Str :=
  [lit "gmail.com", lit "googlemail.com", lit "yahoo.com", lit "ymail.com",
   lit "outlook.com", lit "hotmail.com", lit "live.com", lit "msn.com",
   lit "icloud.com", lit "me.com", lit "mac.com",
   lit "aol.com",
   lit "proton.me", lit "protonmail.com",
   lit "gmx.com", lit "gmx.net"]

/-- The normalized account rows: each website normalized, accounts with an
unresolvable website dropped (app.py WebsiteDomainNormalized plus dropna). -/
def normalizedAccounts (collapse : Bool) (accounts : List Account) : List (Str × Account) :=
  accounts.filterMap
    (fun a => (App.normalize_website_to_domain collapse a.website).map (fun d => (d, a)))

/-- app.py domain_to_accounts: the bucket of accounts indexed by one normalized
domain, in original account order (setdefault plus append over the rows). -/
def domain_to_accounts (collapse : Bool) (accounts : List Account) : Str → List Account :=
  fun d => ((normalizedAccounts collapse accounts).filter (fun p => decide (p.1 = d))).map (fun p => p.2)

/-- One packed candidate entry of the loop (the id, name, domain f-string). -/
def packCand (a : Account) (d : Str) : Str :=
  safe_str a.accountId ++ lit "|" ++ safe_str a.accountName ++ lit "|" ++ d

/-- The six per-lead fields the classification loop appends for every row. -/
structure Outcome where
  suggestedId : Str
  suggestedName : Str
  reason : Str
  confidence : Str
  candidateCount : Nat
  candidates : Str
deriving DecidableEq, Repr

/-- Models the indexing candidates[0], reached only under the length-one guard. -/
def defaultAccount : Account := ⟨none, none, none⟩

/-- The body of the app.py classification loop for one lead: extract the email
domain, normalize, canonicalize through the alias map, then the personal-domain
gate and the index lookup with the one / many / none branches. -/
def classify (aliasMap : Str → Option Str) (index : Str → List Account)
    (treatPersonal collapse : Bool) (email : Cell) : Outcome :=
  match canonicalize aliasMap (App.normalize_domain collapse (App.extract_email_domain email)) with
  | none => ⟨[], [], lit "NoEmailDomain", lit "Low", 0, []⟩
  | some d =>
    if d.isEmpty then ⟨[], [], lit "NoEmailDomain", lit "Low", 0, []⟩
    else if treatPersonal && DEFAULT_PERSONAL_DOMAINS.contains d then
      ⟨[], [], lit "PersonalEmail", lit "Low", 0, []⟩
    else
      let candidates := index d
      if candidates.length = 1 then
        let a := candidates.headD defaultAccount
        ⟨safe_str a.accountId, safe_str a.accountName, lit "DomainMatch", lit "High",
         candidates.length, packCand a d⟩
      else if 1 < candidates.length then
        ⟨[], [], lit "Ambiguous", lit "Medium", candidates.length,
         List.intercalate (lit " || ") ((candidates.take 10).map (fun a => packCand a d))⟩
      else
        ⟨[], [], lit "NoMatch", lit "Low", candidates.length, []⟩

/-- The six parallel lists the loop accumulates into. -/
structure Columns where
  suggested_ids : List Str
  suggested_names : List Str
  reasons : List Str
  confidences : List Str
  candidate_counts : List Nat
  candidates_list : List Str
deriving DecidableEq, Repr

/-- The app.py classification loop over the whole batch: one value appended to
each of the six lists per lead row. -/
def classifyAll (aliasMap : Str → Option Str) (index : Str → List Account)
    (treatPersonal collapse : Bool) (emails : List Cell) : Columns :=
  emails.foldl
    (fun acc e =>
      let o := classify aliasMap index treatPersonal collapse e
      ⟨acc.suggested_ids ++ [o.suggestedId],
       acc.suggested_names ++ [o.suggestedName],
       acc.reasons ++ [o.reason],
       acc.confidences ++ [o.confidence],
       acc.candidate_counts ++ [o.candidateCount],
       acc.candidates_list ++ [o.candidates]⟩)
    ⟨[], [], [], [], [], []⟩

/-- pandas astype(str) on a cell: a missing value renders as the text nan. -/
def cellStr (c : Cell) : Str :=
  match c with
  | none => lit "nan"
  | some s => s

/-- The dedupe _email_norm column: astype(str).str.strip().str.lower(). -/
def emailNorm (c : Cell) : Str := lower (trim (cellStr c))

/-- A valid normalized email key: nonempty and not the rendered missing value. -/
def validEmailNorm (n : Str) : Bool := !n.isEmpty && !(n == lit "nan")

/-- The dup_mask of one row: valid and duplicated, the key occurring at least
twice in the whole column (pandas duplicated keep=False). -/
def dupMask {α : Type} (em : α → Cell) (rows : List α) (r : α) : Bool :=
  validEmailNorm (emailNorm (em r)) &&
    decide (2 ≤ (rows.map (fun s => emailNorm (em s))).count (emailNorm (em r)))

/-- pandas drop_duplicates and unique: keep the first occurrence of a value. -/
def dedupAux {α : Type} [DecidableEq α] (seen : List α) : List α → List α
  | [] => []
  | a :: l => if a ∈ seen then dedupAux seen l else a :: dedupAux (a :: seen) l

/-- Keep-first duplicate removal. -/
def dedupKeepFirst {α : Type} [DecidableEq α] (l : List α) : List α := dedupAux [] l

/-- The distinct duplicate keys in sorted order: pandas groupby sorts group keys
by default, so ngroup numbers groups in lexicographically sorted key order. -/
def dupKeys {α : Type} (em : α → Cell) (rows : List α) : List Str :=
  List.insertionSort (fun a b : Str => a ≤ b)
    (dedupKeepFirst ((rows.filter (dupMask em rows)).map (fun r => emailNorm (em r))))

/-- Zero-padded three-digit decimal rendering (Python format code 03d). -/
def pad3 (n : Nat) : Str :=
  let ds := Nat.toDigits 10 n
  List.replicate (3 - ds.length) '0' ++ ds

/-- The duplicate group identifier of one row (the DUP- f-string over ngroup+1). -/
def dupGroupId {α : Type} (em : α → Cell) (rows : List α) (r : α) : Str :=
  lit "DUP-" ++ pad3 ((dupKeys em rows).indexOf (emailNorm (em r)) + 1)

/-- app.py dedupe_by_email: flag in-file duplicates by normalized email key.
First result: the annotated batch (the merge of the flags back onto the rows by
raw email value, a left join that replicates a row once per matching flag
entry).  Second result: the duplicate-only table. -/
def dedupe_by_email {α : Type} (em : α → Cell) (rows : List α) :
    List (α × Bool × Str × Str) × List (α × Str × Str) :=
  let dupRows := rows.filter (dupMask em rows)
  if dupRows.isEmpty then
    (rows.map (fun r => (r, false, [], [])), [])
  else
    let dupTable := dupRows.map (fun r => (r, dupGroupId em rows r, lit "EmailExact"))
    let flags := dedupKeepFirst (dupTable.map (fun t => (em t.1, t.2.1, t.2.2)))
    let merged := rows.flatMap (fun r =>
      match flags.filter (fun f => decide (f.1 = em r)) with
      | [] => [(r, false, ([] : Str), ([] : Str))]
      | fs => fs.map (fun f => (r, true, f.2.1, f.2.2)))
    (merged, dupTable)

/-- The app.py enrichment run over a batch: build the alias map and the index,
classify every lead, partition into matched, ambiguous and unmatched views, and
run the duplicate grouper over the annotated batch. -/
def runEnrichment {α : Type} (collapse treatPersonal : Bool)
    (accounts : List Account) (aliases : List AliasRec)
    (em : α → Cell) (rows : List α) :
    List ((α × Outcome) × Bool × Str × Str) × List ((α × Outcome) × Str × Str) ×
      List (α × Outcome) × List (α × Outcome) × List (α × Outcome) :=
  let aliasMap := build_alias_map collapse aliases
  let index := domain_to_accounts collapse accounts
  let annotated := rows.map (fun r => (r, classify aliasMap index treatPersonal collapse (em r)))
  let matched := annotated.filter (fun p => p.2.confidence == lit "High")
  let ambiguous := annotated.filter (fun p => p.2.reason == lit "Ambiguous")
  let unmatched := annotated.filter (fun p =>
    p.2.reason == lit "NoMatch" || p.2.reason == lit "NoEmailDomain" ||
      p.2.reason == lit "PersonalEmail")
  let ded := dedupe_by_email (fun p => em p.1) annotated
  (ded.1, ded.2, matched, ambiguous, unmatched)

/-! ## Helper lemmas -/

lemma personal_nonempty (d : Str) (h : DEFAULT_PERSONAL_DOMAINS.contains d = true) :
    d.isEmpty = false := by
  have hd : d ∈ DEFAULT_PERSONAL_DOMAINS := by
    simpa [List.contains] using h
  fin_cases hd <;> decide

lemma classifyAll_loop (aliasMap : Str → Option Str) (index : Str → List Account)
    (treatPersonal collapse : Bool) :
    ∀ (emails : List Cell) (acc : Columns),
      emails.foldl
        (fun acc e =>
          let o := classify aliasMap index treatPersonal collapse e
          ⟨acc.suggested_ids ++ [o.suggestedId],
           acc.suggested_names ++ [o.suggestedName],
           acc.reasons ++ [o.reason],
           acc.confidences ++ [o.confidence],
           acc.candidate_counts ++ [o.candidateCount],
           acc.candidates_list ++ [o.candidates]⟩)
        acc
      = ⟨acc.suggested_ids ++
            emails.map (fun e => (classify aliasMap index treatPersonal collapse e).suggestedId),
         acc.suggested_names ++
            emails.map (fun e => (classify aliasMap index treatPersonal collapse e).suggestedName),
         acc.reasons ++
            emails.map (fun e => (classify aliasMap index treatPersonal collapse e).reason),
         acc.confidences ++
            emails.map (fun e => (classify aliasMap index treatPersonal collapse e).confidence),
         acc.candidate_counts ++
            emails.map (fun e => (classify aliasMap index treatPersonal collapse e).candidateCount),
         acc.candidates_list ++
            emails.map (fun e => (classify aliasMap index treatPersonal collapse e).candidates)⟩ := by
  intro emails
  induction emails with
  | nil => intro acc; simp
  | cons e es ih =>
    intro acc
    rw [List.foldl_cons, ih]
    simp [List.append_assoc]

lemma classify_reason_mem (aliasMap : Str → Option Str) (index : Str → List Account)
    (treatPersonal collapse : Bool) (e : Cell) :
    (classify aliasMap index treatPersonal collapse e).reason ∈
      [lit "NoEmailDomain", lit "PersonalEmail", lit "DomainMatch", lit "Ambiguous", lit "NoMatch"] := by
  unfold classify
  split
  · simp
  · dsimp only
    split_ifs <;> simp

lemma classify_confidence_mem (aliasMap : Str → Option Str) (index : Str → List Account)
    (treatPersonal collapse : Bool) (e : Cell) :
    (classify aliasMap index treatPersonal collapse e).confidence ∈
      [lit "Low", lit "Medium", lit "High"] := by
  unfold classify
  split
  · simp
  · dsimp only
    split_ifs <;> simp

lemma build_alias_map_loop (collapse : Bool) (recs : List AliasRec) :
    ∀ (m : Str → Option Str) (k : Str),
      (recs.foldl
        (fun m r =>
          match App.normalize_domain collapse r.inputDomain,
                App.normalize_domain collapse r.canonicalDomain with
          | some i, some c =>
            if i.isEmpty || c.isEmpty then m else fun k => if k = i then some c else m k
          | _, _ => m)
        m) k
      = match specAliasTarget collapse k recs with
        | some v => some v
        | none => m k := by
  induction recs with
  | nil => intro m k; rfl
  | cons r rs ih =>
    intro m k
    rw [List.foldl_cons, ih]
    cases hs : specAliasTarget collapse k rs with
    | some v => simp only [specAliasTarget, hs]
    | none =>
      simp only [specAliasTarget, hs]
      cases hi : App.normalize_domain collapse r.inputDomain with
      | none => simp [hi]
      | some i =>
        cases hc : App.normalize_domain collapse r.canonicalDomain with
        | none => simp [hi, hc]
        | some c =>
          by_cases hie : (i.isEmpty || c.isEmpty) = true
          · simp [hi, hc, hie]
          · rw [Bool.not_eq_true] at hie
            by_cases hk : k = i
            · subst hk; simp [hi, hc, hie]
            · have hk2 : ¬ i = k := fun h => hk h.symm
              simp [hi, hc, hie, hk, hk2]

/-! ## Claims C4, C5, C6, C7, C9 -/

/-- Claim C4: for every lead whose canonical domain is present and not filtered
as personal, the index lookup yields: exactly one candidate gives DomainMatch,
High, that candidate suggested and count 1; two or more candidates give
Ambiguous, Medium, no suggested account, the uncapped candidate count, and the
candidate list truncated to the first 10 in index order; zero candidates give
NoMatch, Low and count 0. -/
theorem claim_C4 (aliasMap : Str → Option Str) (index : Str → List Account)
    (treatPersonal collapse : Bool) (email : Cell) (d : Str)
    (hc : canonicalize aliasMap
        (App.normalize_domain collapse (App.extract_email_domain email)) = some d)
    (hne : d.isEmpty = false)
    (hp : (treatPersonal && DEFAULT_PERSONAL_DOMAINS.contains d) = false) :
    ((index d).length = 1 →
      classify aliasMap index treatPersonal collapse email =
        ⟨safe_str ((index d).headD defaultAccount).accountId,
         safe_str ((index d).headD defaultAccount).accountName,
         lit "DomainMatch", lit "High", 1,
         packCand ((index d).headD defaultAccount) d⟩)
    ∧ (1 < (index d).length →
      classify aliasMap index treatPersonal collapse email =
        ⟨[], [], lit "Ambiguous", lit "Medium", (index d).length,
         List.intercalate (lit " || ") (((index d).take 10).map (fun a => packCand a d))⟩)
    ∧ ((index d).length = 0 →
      classify aliasMap index treatPersonal collapse email =
        ⟨[], [], lit "NoMatch", lit "Low", 0, []⟩) := by
  unfold classify
  rw [hc]
  have hpp : ¬ (treatPersonal = true ∧ d ∈ DEFAULT_PERSONAL_DOMAINS) := by
    rintro ⟨ht, hd⟩
    rw [ht] at hp
    have hcontains : DEFAULT_PERSONAL_DOMAINS.contains d = true := by
      simpa [List.contains] using hd
    rw [hcontains] at hp
    exact absurd hp (by decide)
  refine ⟨fun h1 => ?_, fun h2 => ?_, fun h0 => ?_⟩
  · simp [hne, hpp, h1]
  · have hn1 : (index d).length ≠ 1 := by omega
    simp [hne, hpp, hn1, h2]
  · have hn1 : (index d).length ≠ 1 := by omega
    have hn2 : ¬ 1 < (index d).length := by omega
    simp [hne, hpp, hn1, hn2, h0]

/-- Sample account for concrete witnesses. -/
def sampleAcc : Account := ⟨some (lit "1"), some (lit "Acme"), some (lit "acme.com")⟩

/-- Witness for claim C4 at a concrete one-candidate input. -/
theorem claim_C4_witness :
    ((domain_to_accounts true [sampleAcc] (lit "acme.com")).length = 1 →
      classify (fun _ => none) (domain_to_accounts true [sampleAcc]) true true
          (some (lit "a@acme.com")) =
        ⟨safe_str ((domain_to_accounts true [sampleAcc] (lit "acme.com")).headD
            defaultAccount).accountId,
         safe_str ((domain_to_accounts true [sampleAcc] (lit "acme.com")).headD
            defaultAccount).accountName,
         lit "DomainMatch", lit "High", 1,
         packCand ((domain_to_accounts true [sampleAcc] (lit "acme.com")).headD
            defaultAccount) (lit "acme.com")⟩)
    ∧ (1 < (domain_to_accounts true [sampleAcc] (lit "acme.com")).length →
      classify (fun _ => none) (domain_to_accounts true [sampleAcc]) true true
          (some (lit "a@acme.com")) =
        ⟨[], [], lit "Ambiguous", lit "Medium",
         (domain_to_accounts true [sampleAcc] (lit "acme.com")).length,
         List.intercalate (lit " || ")
           (((domain_to_accounts true [sampleAcc] (lit "acme.com")).take 10).map
             (fun a => packCand a (lit "acme.com")))⟩)
    ∧ ((domain_to_accounts true [sampleAcc] (lit "acme.com")).length = 0 →
      classify (fun _ => none) (domain_to_accounts true [sampleAcc]) true true
          (some (lit "a@acme.com")) =
        ⟨[], [], lit "NoMatch", lit "Low", 0, []⟩) :=
  claim_C4 (fun _ => none) (domain_to_accounts true [sampleAcc]) true true
    (some (lit "a@acme.com")) (lit "acme.com") (by decide) (by decide) (by decide)

/-- Claim C5: the classifier composes extraction, normalization and alias
canonicalization; absence at any step propagates and yields the NoEmailDomain
outcome, and an enabled personal-domain flag with a personal canonical domain
yields the PersonalEmail outcome for every account index (the index is never
consulted). -/
theorem claim_C5 :
    (∀ collapse : Bool, App.normalize_domain collapse none = none)
    ∧ (∀ aliasMap : Str → Option Str, canonicalize aliasMap none = none)
    ∧ (∀ (aliasMap : Str → Option Str) (index : Str → List Account)
        (treatPersonal collapse : Bool) (email : Cell),
        canonicalize aliasMap
            (App.normalize_domain collapse (App.extract_email_domain email)) = none →
        classify aliasMap index treatPersonal collapse email =
          ⟨[], [], lit "NoEmailDomain", lit "Low", 0, []⟩)
    ∧ (∀ (aliasMap : Str → Option Str) (index : Str → List Account)
        (collapse : Bool) (email : Cell) (d : Str),
        canonicalize aliasMap
            (App.normalize_domain collapse (App.extract_email_domain email)) = some d →
        DEFAULT_PERSONAL_DOMAINS.contains d = true →
        classify aliasMap index true collapse email =
          ⟨[], [], lit "PersonalEmail", lit "Low", 0, []⟩) := by
  refine ⟨fun _ => rfl, fun _ => rfl, fun am idx tp c e hnone => ?_,
    fun am idx c e d hsome hmem => ?_⟩
  · unfold classify
    rw [hnone]
  · unfold classify
    rw [hsome]
    have hne := personal_nonempty d hmem
    have hd : d ∈ DEFAULT_PERSONAL_DOMAINS := by simpa [List.contains] using hmem
    simp [hne, hd]

/-- Witness for claim C5 at concrete inputs: a lead with no at-sign and a
personal gmail.com lead. -/
theorem claim_C5_witness :
    App.normalize_domain true none = none
    ∧ canonicalize (fun _ => none) none = none
    ∧ classify (fun _ => none) (fun _ => [sampleAcc]) true true (some (lit "no-at-sign")) =
        ⟨[], [], lit "NoEmailDomain", lit "Low", 0, []⟩
    ∧ classify (fun _ => none) (fun _ => [sampleAcc]) true true (some (lit "a@gmail.com")) =
        ⟨[], [], lit "PersonalEmail", lit "Low", 0, []⟩ :=
  ⟨claim_C5.1 true, claim_C5.2.1 (fun _ => none),
   claim_C5.2.2.1 (fun _ => none) (fun _ => [sampleAcc]) true true
     (some (lit "no-at-sign")) (by decide),
   claim_C5.2.2.2 (fun _ => none) (fun _ => [sampleAcc]) true
     (some (lit "a@gmail.com")) (lit "gmail.com") (by decide) (by decide)⟩

/-- Claim C6: classification is total; the loop appends exactly one value to
each of the six output columns per lead row, whatever the email cell contains,
so every row receives a fully populated outcome whose reason and confidence
are drawn from the documented enumerations. -/
theorem claim_C6 (aliasMap : Str → Option Str) (index : Str → List Account)
    (treatPersonal collapse : Bool) (emails : List Cell) :
    (classifyAll aliasMap index treatPersonal collapse emails =
      ⟨emails.map (fun e => (classify aliasMap index treatPersonal collapse e).suggestedId),
       emails.map (fun e => (classify aliasMap index treatPersonal collapse e).suggestedName),
       emails.map (fun e => (classify aliasMap index treatPersonal collapse e).reason),
       emails.map (fun e => (classify aliasMap index treatPersonal collapse e).confidence),
       emails.map (fun e => (classify aliasMap index treatPersonal collapse e).candidateCount),
       emails.map (fun e => (classify aliasMap index treatPersonal collapse e).candidates)⟩)
    ∧ (classifyAll aliasMap index treatPersonal collapse emails).reasons.length = emails.length
    ∧ (classifyAll aliasMap index treatPersonal collapse emails).candidate_counts.length
        = emails.length
    ∧ (∀ e : Cell, (classify aliasMap index treatPersonal collapse e).reason ∈
        [lit "NoEmailDomain", lit "PersonalEmail", lit "DomainMatch",
         lit "Ambiguous", lit "NoMatch"])
    ∧ (∀ e : Cell, (classify aliasMap index treatPersonal collapse e).confidence ∈
        [lit "Low", lit "Medium", lit "High"]) := by
  have h := classifyAll_loop aliasMap index treatPersonal collapse emails ⟨[], [], [], [], [], []⟩
  have hall : classifyAll aliasMap index treatPersonal collapse emails =
      ⟨emails.map (fun e => (classify aliasMap index treatPersonal collapse e).suggestedId),
       emails.map (fun e => (classify aliasMap index treatPersonal collapse e).suggestedName),
       emails.map (fun e => (classify aliasMap index treatPersonal collapse e).reason),
       emails.map (fun e => (classify aliasMap index treatPersonal collapse e).confidence),
       emails.map (fun e => (classify aliasMap index treatPersonal collapse e).candidateCount),
       emails.map (fun e => (classify aliasMap index treatPersonal collapse e).candidates)⟩ := by
    unfold classifyAll
    rw [h]
    simp
  refine ⟨hall, ?_, ?_, classify_reason_mem aliasMap index treatPersonal collapse,
    classify_confidence_mem aliasMap index treatPersonal collapse⟩
  · rw [hall]; simp
  · rw [hall]; simp

/-- Claim C7: build_alias_map normalizes both sides of each alias record,
inserts only when both sides are present (truthy), and on duplicate input
domains the last record in input order wins: the lookup of any key equals the
search for the last valid record for that key. -/
theorem claim_C7 (collapse : Bool) (recs : List AliasRec) (k : Str) :
    build_alias_map collapse recs k = specAliasTarget collapse k recs := by
  unfold build_alias_map
  rw [build_alias_map_loop]
  cases specAliasTarget collapse k recs <;> rfl

/-- Claim C9: the enrichment run is deterministic; two runs over the same lead
batch, account directory, alias directory and configuration produce identical
output tables.  The embedding makes the run a pure function of its inputs: the
run block reads no state other than its arguments. -/
theorem claim_C9 {α : Type} (collapse treatPersonal : Bool) (accounts : List Account)
    (aliases : List AliasRec) (em : α → Cell) (rows : List α)
    (r₁ r₂ : List ((α × Outcome) × Bool × Str × Str) × List ((α × Outcome) × Str × Str) ×
      List (α × Outcome) × List (α × Outcome) × List (α × Outcome))
    (h₁ : r₁ = runEnrichment collapse treatPersonal accounts aliases em rows)
    (h₂ : r₂ = runEnrichment collapse treatPersonal accounts aliases em rows) :
    r₁ = r₂ :=
  h₁.trans h₂.symm

/-- Witness for claim C9 at a concrete batch. -/
theorem claim_C9_witness :
    runEnrichment true true [sampleAcc] [] (fun s : Str => some s) [lit "a@acme.com"] =
      runEnrichment true true [sampleAcc] [] (fun s : Str => some s) [lit "a@acme.com"] :=
  claim_C9 true true [sampleAcc] [] (fun s : Str => some s) [lit "a@acme.com"]
    _ _ rfl rfl

/-! ## Duplicate grouper lemmas -/

lemma mem_dedupAux {α : Type} [DecidableEq α] (x : α) :
    ∀ (l seen : List α), x ∈ dedupAux seen l ↔ x ∈ l ∧ x ∉ seen := by
  intro l
  induction l with
  | nil => intro seen; simp [dedupAux]
  | cons a t ih =>
    intro seen
    by_cases ha : a ∈ seen
    · rw [show dedupAux seen (a :: t) = dedupAux seen t from by simp [dedupAux, ha], ih]
      simp only [List.mem_cons]
      constructor
      · rintro ⟨hx, hs⟩
        exact ⟨Or.inr hx, hs⟩
      · rintro ⟨hx | hx, hs⟩
        · exact absurd (hx ▸ ha) hs
        · exact ⟨hx, hs⟩
    · rw [show dedupAux seen (a :: t) = a :: dedupAux (a :: seen) t from by simp [dedupAux, ha]]
      simp only [List.mem_cons, ih]
      constructor
      · rintro (rfl | ⟨hx, hs⟩)
        · exact ⟨Or.inl rfl, ha⟩
        · push_neg at hs
          exact ⟨Or.inr hx, hs.2⟩
      · rintro ⟨hx | hx, hs⟩
        · exact Or.inl hx
        · by_cases hxa : x = a
          · exact Or.inl hxa
          · refine Or.inr ⟨hx, ?_⟩
            push_neg
            exact ⟨hxa, hs⟩

lemma nodup_dedupAux {α : Type} [DecidableEq α] :
    ∀ (l seen : List α), (dedupAux seen l).Nodup := by
  intro l
  induction l with
  | nil => intro seen; simp [dedupAux]
  | cons a t ih =>
    intro seen
    by_cases ha : a ∈ seen
    · simpa [dedupAux, ha] using ih seen
    · rw [show dedupAux seen (a :: t) = a :: dedupAux (a :: seen) t from by simp [dedupAux, ha]]
      rw [List.nodup_cons]
      refine ⟨fun hmem => ?_, ih _⟩
      rw [mem_dedupAux] at hmem
      exact hmem.2 (List.mem_cons_self a seen)

lemma mem_dedupKeepFirst {α : Type} [DecidableEq α] (x : α) (l : List α) :
    x ∈ dedupKeepFirst l ↔ x ∈ l := by
  simp [dedupKeepFirst, mem_dedupAux]

lemma nodup_dedupKeepFirst {α : Type} [DecidableEq α] (l : List α) :
    (dedupKeepFirst l).Nodup :=
  nodup_dedupAux l []

lemma nodup_all_eq_cases {α : Type} {l : List α} {t : α}
    (hn : l.Nodup) (ha : ∀ x ∈ l, x = t) : l = [] ∨ l = [t] := by
  cases l with
  | nil => exact Or.inl rfl
  | cons a rest =>
    right
    have hat : a = t := ha a (List.mem_cons_self a rest)
    cases rest with
    | nil => rw [hat]
    | cons b r2 =>
      exfalso
      have hbt : b = t := ha b (by simp)
      rw [List.nodup_cons] at hn
      exact hn.1 (by rw [hat, ← hbt]; simp)

lemma dupMask_congr {α : Type} (em : α → Cell) (rows : List α) {r s : α}
    (h : em s = em r) : dupMask em rows s = dupMask em rows r := by
  unfold dupMask
  rw [h]

lemma dupGroupId_congr {α : Type} (em : α → Cell) (rows : List α) {r s : α}
    (h : em s = em r) : dupGroupId em rows s = dupGroupId em rows r := by
  unfold dupGroupId
  rw [h]

lemma flags_filter {α : Type} (em : α → Cell) (rows : List α) (r : α) (hr : r ∈ rows) :
    (dedupKeepFirst ((rows.filter (dupMask em rows)).map
        (fun t => (em t, dupGroupId em rows t, lit "EmailExact")))).filter
      (fun f => decide (f.1 = em r))
    = if dupMask em rows r then [(em r, dupGroupId em rows r, lit "EmailExact")] else [] := by
  by_cases hm : dupMask em rows r = true
  · rw [if_pos hm]
    have hall : ∀ f ∈ (dedupKeepFirst ((rows.filter (dupMask em rows)).map
        (fun t => (em t, dupGroupId em rows t, lit "EmailExact")))).filter
          (fun f => decide (f.1 = em r)),
        f = (em r, dupGroupId em rows r, lit "EmailExact") := by
      intro f hf
      rw [List.mem_filter] at hf
      obtain ⟨hf1, hf2⟩ := hf
      rw [mem_dedupKeepFirst, List.mem_map] at hf1
      obtain ⟨s, _, rfl⟩ := hf1
      have hes : em s = em r := by simpa using hf2
      rw [hes, dupGroupId_congr em rows hes]
    have hnd : ((dedupKeepFirst ((rows.filter (dupMask em rows)).map
        (fun t => (em t, dupGroupId em rows t, lit "EmailExact")))).filter
          (fun f => decide (f.1 = em r))).Nodup :=
      List.Nodup.filter _ (nodup_dedupKeepFirst _)
    have hmem : (em r, dupGroupId em rows r, lit "EmailExact") ∈
        (dedupKeepFirst ((rows.filter (dupMask em rows)).map
          (fun t => (em t, dupGroupId em rows t, lit "EmailExact")))).filter
            (fun f => decide (f.1 = em r)) := by
      rw [List.mem_filter]
      refine ⟨?_, by simp⟩
      rw [mem_dedupKeepFirst, List.mem_map]
      exact ⟨r, List.mem_filter.mpr ⟨hr, hm⟩, rfl⟩
    rcases nodup_all_eq_cases hnd hall with h0 | h1
    · rw [h0] at hmem
      simp at hmem
    · exact h1
  · rw [if_neg hm]
    rw [List.filter_eq_nil_iff]
    intro f hf
    rw [mem_dedupKeepFirst, List.mem_map] at hf
    obtain ⟨s, hs, rfl⟩ := hf
    rw [List.mem_filter] at hs
    simp only [decide_eq_true_eq]
    intro hes
    exact hm (dupMask_congr em rows hes ▸ hs.2)

lemma flatMap_eq_map {α β : Type} (l : List α) (f : α → List β) (g : α → β)
    (h : ∀ a ∈ l, f a = [g a]) : l.flatMap f = l.map g := by
  induction l with
  | nil => rfl
  | cons a t ih =>
    rw [List.flatMap_cons, List.map_cons, h a (List.mem_cons_self a t),
      ih (fun b hb => h b (List.mem_cons_of_mem a hb))]
    rfl

lemma indexOf_sorted_eq_countP :
    ∀ (l : List Str), List.Sorted (fun a b : Str => a ≤ b) l → l.Nodup → ∀ k ∈ l,
      l.indexOf k = l.countP (fun x => decide (x < k)) := by
  intro l
  induction l with
  | nil => simp
  | cons a t ih =>
    intro hs hn k hk
    rw [List.sorted_cons] at hs
    obtain ⟨hab, hst⟩ := hs
    rw [List.nodup_cons] at hn
    obtain ⟨hna, hnt⟩ := hn
    by_cases hka : a = k
    · subst hka
      rw [List.indexOf_cons]
      simp only [beq_self_eq_true, cond_true]
      rw [List.countP_cons]
      have h1 : (decide (a < a) : Bool) = false := by simp
      have h2 : t.countP (fun x => decide (x < a)) = 0 := by
        rw [List.countP_eq_zero]
        intro x hx
        have hax : a ≤ x := hab x hx
        have hxa : x ≠ a := fun h => hna (h ▸ hx)
        simp only [decide_eq_true_eq]
        exact fun hlt => hxa (le_antisymm (le_of_lt hlt) hax)
      rw [h1, h2]
      simp
    · have hkt : k ∈ t := by
        rcases List.mem_cons.mp hk with h | h
        · exact absurd h.symm hka
        · exact h
      have hak : a < k := lt_of_le_of_ne (hab k hkt) hka
      rw [List.indexOf_cons]
      have hbeq : (a == k) = false := by simp [hka]
      rw [hbeq]
      simp only [cond_false]
      rw [List.countP_cons, ih hst hnt k hkt]
      simp [hak]

/-- Claim C8 (frame property of the duplicate grouper): the first output is the
input batch itself, row for row and in order, each row extended with exactly
the three duplicate fields, set to true / group id / EmailExact on flagged
rows and false / empty / empty on all others; the second output is exactly the
flagged subset (the empty table when no duplicates exist). -/
theorem claim_C8 {α : Type} (em : α → Cell) (rows : List α) :
    ((dedupe_by_email em rows).1.map (fun p => p.1) = rows)
    ∧ (dedupe_by_email em rows).1 = rows.map (fun r =>
        if dupMask em rows r then (r, true, dupGroupId em rows r, lit "EmailExact")
        else (r, false, [], []))
    ∧ (dedupe_by_email em rows).2 = (rows.filter (dupMask em rows)).map
        (fun r => (r, dupGroupId em rows r, lit "EmailExact")) := by
  have hmain : (dedupe_by_email em rows).1 = rows.map (fun r =>
        if dupMask em rows r then (r, true, dupGroupId em rows r, lit "EmailExact")
        else (r, false, ([] : Str), ([] : Str)))
      ∧ (dedupe_by_email em rows).2 = (rows.filter (dupMask em rows)).map
        (fun r => (r, dupGroupId em rows r, lit "EmailExact")) := by
    unfold dedupe_by_email
    by_cases he : (rows.filter (dupMask em rows)).isEmpty = true
    · simp only [he, if_true]
      have hnone : ∀ r ∈ rows, dupMask em rows r = false := by
        intro r hr
        by_contra hcon
        rw [Bool.not_eq_false] at hcon
        have : r ∈ rows.filter (dupMask em rows) := List.mem_filter.mpr ⟨hr, hcon⟩
        rw [List.isEmpty_iff.mp he] at this
        simp at this
      constructor
      · refine List.map_congr_left ?_
        intro r hr
        rw [hnone r hr]
        simp
      · rw [List.isEmpty_iff.mp he]
        rfl
    · simp only [he, if_false]
      constructor
      · rw [List.map_map]
        have hcomp : ((fun t => (em t.1, t.2.1, t.2.2)) ∘
            (fun r => (r, dupGroupId em rows r, lit "EmailExact")))
            = fun t => (em t, dupGroupId em rows t, lit "EmailExact") := rfl
        rw [hcomp]
        refine flatMap_eq_map rows _ _ ?_
        intro r hr
        rw [flags_filter em rows r hr]
        by_cases hm : dupMask em rows r = true
        · rw [if_pos hm, hm]
          rfl
        · rw [if_neg hm]
          rw [Bool.not_eq_true] at hm
          rw [hm]
          rfl
      · rfl
  have hfst : (dedupe_by_email em rows).1.map (fun p => p.1) = rows := by
    rw [hmain.1, List.map_map]
    have hpt : ∀ r ∈ rows, ((fun p : α × Bool × Str × Str => p.1) ∘
        (fun r => if dupMask em rows r then (r, true, dupGroupId em rows r, lit "EmailExact")
                  else (r, false, ([] : Str), ([] : Str)))) r = id r := by
      intro r _
      by_cases hm : dupMask em rows r = true <;> simp [hm]
    rw [List.map_congr_left hpt, List.map_id]
  exact ⟨hfst, hmain.1, hmain.2⟩

/-- Claim C1 (amended): group identifiers DUP-NNN, zero-padded to 3 digits,
are assigned to the retained partitions numbered sequentially starting at 1 in
increasing lexicographic order of the partition's normalized email key (pandas
groupby sorts keys before ngroup numbers them), not in the order partitions
are first observed top-to-bottom; the numbering is still deterministic and
reproducible for a given input order.  The group number of a flagged row is
one plus the number of distinct flagged keys strictly below its own key. -/
theorem claim_C1_amended {α : Type} (em : α → Cell) (rows : List α) (r : α)
    (h : dupMask em rows r = true) :
    List.Sorted (fun a b : Str => a ≤ b) (dupKeys em rows)
    ∧ (dupKeys em rows).Nodup
    ∧ dupGroupId em rows r = lit "DUP-" ++ pad3 (1 +
        ((dedupKeepFirst ((rows.filter (dupMask em rows)).map
            (fun s => emailNorm (em s)))).filter
          (fun x => decide (x < emailNorm (em r)))).length) := by
  have hsorted : List.Sorted (fun a b : Str => a ≤ b) (dupKeys em rows) :=
    List.sorted_insertionSort _ _
  have hperm : (dupKeys em rows).Perm
      (dedupKeepFirst ((rows.filter (dupMask em rows)).map (fun s => emailNorm (em s)))) :=
    List.perm_insertionSort _ _
  have hnodup : (dupKeys em rows).Nodup :=
    hperm.nodup_iff.mpr (nodup_dedupKeepFirst _)
  have hcount : 2 ≤ (rows.map (fun s => emailNorm (em s))).count (emailNorm (em r)) := by
    unfold dupMask at h
    rw [Bool.and_eq_true] at h
    exact of_decide_eq_true h.2
  have hmembase : emailNorm (em r) ∈
      dedupKeepFirst ((rows.filter (dupMask em rows)).map (fun s => emailNorm (em s))) := by
    rw [mem_dedupKeepFirst, List.mem_map]
    have hmem0 : emailNorm (em r) ∈ rows.map (fun s => emailNorm (em s)) := by
      rw [← List.count_pos_iff]
      omega
    obtain ⟨s, hs, hns⟩ := List.mem_map.mp hmem0
    refine ⟨s, List.mem_filter.mpr ⟨hs, ?_⟩, hns⟩
    unfold dupMask at h ⊢
    rw [hns]
    exact h
  have hmemkeys : emailNorm (em r) ∈ dupKeys em rows := hperm.mem_iff.mpr hmembase
  refine ⟨hsorted, hnodup, ?_⟩
  unfold dupGroupId
  rw [indexOf_sorted_eq_countP _ hsorted hnodup _ hmemkeys]
  rw [hperm.countP_eq]
  rw [List.countP_eq_length_filter]
  rw [Nat.add_comm]

/-- Witness for claim C1 at a concrete batch with two duplicate groups. -/
theorem claim_C1_amended_witness :
    List.Sorted (fun a b : Str => a ≤ b)
      (dupKeys (fun s : Str => some s)
        [lit "b@x.com", lit "b@x.com", lit "a@y.com", lit "a@y.com"])
    ∧ (dupKeys (fun s : Str => some s)
        [lit "b@x.com", lit "b@x.com", lit "a@y.com", lit "a@y.com"]).Nodup
    ∧ dupGroupId (fun s : Str => some s)
        [lit "b@x.com", lit "b@x.com", lit "a@y.com", lit "a@y.com"] (lit "b@x.com")
      = lit "DUP-" ++ pad3 (1 +
        ((dedupKeepFirst (([lit "b@x.com", lit "b@x.com", lit "a@y.com",
            lit "a@y.com"].filter (dupMask (fun s : Str => some s)
              [lit "b@x.com", lit "b@x.com", lit "a@y.com", lit "a@y.com"])).map
            (fun s => emailNorm (some s)))).filter
          (fun x => decide (x < emailNorm (some (lit "b@x.com"))))).length) :=
  claim_C1_amended (fun s : Str => some s)
    [lit "b@x.com", lit "b@x.com", lit "a@y.com", lit "a@y.com"]
    (lit "b@x.com") (by decide)

/-- Counterexample to claim C1 as stated: in a batch whose first-observed
partition has key b at x.com and whose second-observed partition has key
a at y.com, the first-observed partition receives DUP-002, not DUP-001, so
groups are not numbered in the order partitions are first observed when
scanning top-to-bottom. -/
theorem claim_C1_counterexample :
    (dedupe_by_email (fun s : Str => some s)
        [lit "b@x.com", lit "b@x.com", lit "a@y.com", lit "a@y.com"]).1.map
      (fun p => p.2.2.1)
      = [lit "DUP-002", lit "DUP-002", lit "DUP-001", lit "DUP-001"]
    ∧ lit "DUP-002" ≠ lit "DUP-001" := by
  constructor
  · decide
  · decide

/-! ## Normalizer lemmas: characters and case folding -/

lemma char_toNat_ofNat_valid (n : Nat) (h : Nat.isValidChar n) : (Char.ofNat n).toNat = n := by
  unfold Char.ofNat
  rw [dif_pos h]
  simp [Char.toNat, Char.ofNatAux, UInt32.ofNat', UInt32.toNat]

lemma lowerChar_spec (c : Char) :
    lowerChar c = if 65 ≤ c.toNat ∧ c.toNat ≤ 90 then Char.ofNat (c.toNat + 32) else c := rfl

lemma lowerChar_idem (c : Char) : lowerChar (lowerChar c) = lowerChar c := by
  rw [lowerChar_spec c]
  by_cases h : 65 ≤ c.toNat ∧ c.toNat ≤ 90
  · rw [if_pos h]
    have hv : Nat.isValidChar (c.toNat + 32) := Or.inl (by omega)
    have ht : (Char.ofNat (c.toNat + 32)).toNat = c.toNat + 32 := char_toNat_ofNat_valid _ hv
    rw [lowerChar_spec, if_neg (by omega)]
  · rw [if_neg h, lowerChar_spec, if_neg h]

lemma lowerChar_eq_low (c t : Char) (ht : t.toNat < 97 ∨ 122 < t.toNat)
    (h : lowerChar c = t) : c = t := by
  rw [lowerChar_spec] at h
  by_cases hc : 65 ≤ c.toNat ∧ c.toNat ≤ 90
  · rw [if_pos hc] at h
    exfalso
    have hv : Nat.isValidChar (c.toNat + 32) := Or.inl (by omega)
    have hn := char_toNat_ofNat_valid (c.toNat + 32) hv
    rw [h] at hn
    omega
  · rwa [if_neg hc] at h

lemma lower_fixed_of (s : Str) (h : ∀ c ∈ s, lowerChar c = c) : lower s = s := by
  unfold lower
  conv_rhs => rw [← List.map_id s]
  exact List.map_congr_left h

lemma lc_lower (s : Str) : ∀ c ∈ lower s, lowerChar c = c := by
  intro c hc
  obtain ⟨c0, _, rfl⟩ := List.mem_map.mp hc
  exact lowerChar_idem c0

/-! ## Normalizer lemmas: membership preservation -/

lemma mem_trim {c : Char} {l : Str} (h : c ∈ trim l) : c ∈ l := by
  unfold trim trimL trimR at h
  have h1 : c ∈ (l.reverse.dropWhile pySpace).reverse :=
    List.Sublist.mem h (List.dropWhile_sublist _)
  rw [List.mem_reverse] at h1
  have h2 : c ∈ l.reverse := List.Sublist.mem h1 (List.dropWhile_sublist _)
  exact List.mem_reverse.mp h2

lemma mem_stripScheme {c : Char} {d : Str} (h : c ∈ stripScheme d) : c ∈ d := by
  unfold stripScheme at h
  split_ifs at h
  · exact List.mem_of_mem_drop h
  · exact List.mem_of_mem_drop h
  · exact h

lemma mem_stripWww {c : Char} {d : Str} (h : c ∈ stripWww d) : c ∈ d := by
  unfold stripWww at h
  split_ifs at h
  · exact List.mem_of_mem_drop h
  · exact h

lemma splitOnChar_ne_nil (sep : Char) (l : Str) : splitOnChar sep l ≠ [] := by
  cases l with
  | nil => simp [splitOnChar]
  | cons c t =>
    simp only [splitOnChar]
    split
    · simp
    · split <;> simp

lemma split_head_eq (sep : Char) : ∀ l : Str,
    (splitOnChar sep l).headD [] = l.takeWhile (fun c => c != sep) := by
  intro l
  induction l with
  | nil => rfl
  | cons c t ih =>
    rcases hsp : splitOnChar sep t with _ | ⟨h, r⟩
    · exact absurd hsp (splitOnChar_ne_nil sep t)
    · by_cases hc : (c == sep) = true
      · have hcs : c = sep := by simpa using hc
        simp [splitOnChar, hsp, hc, List.takeWhile, hcs]
      · have hcs : (c != sep) = true := by simpa using hc
        simp only [splitOnChar, hsp, hc, if_false, List.headD_cons, List.takeWhile_cons, hcs,
          if_true]
        rw [← ih, hsp]
        simp

lemma mem_split_head {sep c : Char} {l : Str}
    (h : c ∈ (splitOnChar sep l).headD []) : c ∈ l ∧ c ≠ sep := by
  rw [split_head_eq] at h
  refine ⟨List.Sublist.mem h (List.takeWhile_sublist _), ?_⟩
  have := List.mem_takeWhile_imp h
  simpa using this

lemma mem_splitOnChar_part (sep : Char) :
    ∀ (l : Str) (p : Str), p ∈ splitOnChar sep l → ∀ c ∈ p, c ∈ l ∧ c ≠ sep := by
  intro l
  induction l with
  | nil =>
    intro p hp c hc
    simp [splitOnChar] at hp
    subst hp
    simp at hc
  | cons a t ih =>
    intro p hp c hc
    rcases hsp : splitOnChar sep t with _ | ⟨h, r⟩
    · exact absurd hsp (splitOnChar_ne_nil sep t)
    · simp only [splitOnChar, hsp] at hp
      by_cases ha : (a == sep) = true
      · rw [if_pos ha] at hp
        rcases List.mem_cons.mp hp with rfl | hp2
        · simp at hc
        · have := ih p (hsp ▸ hp2) c hc
          exact ⟨List.mem_cons_of_mem a this.1, this.2⟩
      · rw [if_neg ha] at hp
        rcases List.mem_cons.mp hp with rfl | hp2
        · rcases List.mem_cons.mp hc with rfl | hch
          · exact ⟨List.mem_cons_self c t, by simpa using ha⟩
          · have := ih h (hsp ▸ List.mem_cons_self h r) c hch
            exact ⟨List.mem_cons_of_mem a this.1, this.2⟩
        · have := ih p (hsp ▸ List.mem_cons_of_mem h hp2) c hc
          exact ⟨List.mem_cons_of_mem a this.1, this.2⟩

lemma splitOnChar_length (sep : Char) : ∀ l : Str,
    (splitOnChar sep l).length = l.count sep + 1 := by
  intro l
  induction l with
  | nil => rfl
  | cons a t ih =>
    rcases hsp : splitOnChar sep t with _ | ⟨h, r⟩
    · exact absurd hsp (splitOnChar_ne_nil sep t)
    · rw [hsp] at ih
      simp only [splitOnChar, hsp]
      by_cases ha : (a == sep) = true
      · have has : a = sep := by simpa using ha
        rw [if_pos ha]
        simp only [List.length_cons, List.count_cons] at ih ⊢
        simp [has]
        omega
      · rw [if_neg ha]
        simp only [List.length_cons, List.count_cons]
        simp only [List.length_cons] at ih
        simp [ha, ih]

lemma collapse_two (d : Str) (h2 : 2 ≤ d.count '.') :
    ∃ a b, a ∈ splitOnChar '.' d ∧ b ∈ splitOnChar '.' d ∧
      (splitOnChar '.' d).drop ((splitOnChar '.' d).length - 2) = [a, b] := by
  have hlen : 3 ≤ (splitOnChar '.' d).length := by
    rw [splitOnChar_length]
    omega
  have hdl : ((splitOnChar '.' d).drop ((splitOnChar '.' d).length - 2)).length = 2 := by
    rw [List.length_drop]
    omega
  obtain ⟨a, b, hab⟩ := List.length_eq_two.mp hdl
  refine ⟨a, b, ?_, ?_, hab⟩
  · exact List.mem_of_mem_drop (hab ▸ (List.mem_cons_self a [b]))
  · exact List.mem_of_mem_drop (hab ▸ (by simp : b ∈ [a, b]))

lemma intercalate_pair (a b : Str) : List.intercalate (lit ".") [a, b] = a ++ '.' :: b := by
  simp [List.intercalate, List.intersperse, lit]

lemma collapse_result_props (d : Str) (hde : d ≠ [])
    (hlc : ∀ c ∈ d, lowerChar c = c) (hsl : '/' ∉ d) :
    collapseIfRequested true d ≠ []
    ∧ (∀ c ∈ collapseIfRequested true d, lowerChar c = c)
    ∧ '/' ∉ collapseIfRequested true d
    ∧ (collapseIfRequested true d).count '.' ≤ 1 := by
  unfold collapseIfRequested
  by_cases hb : (true && decide (2 ≤ d.count '.')) = true
  · have h2 : 2 ≤ d.count '.' := by simpa using hb
    obtain ⟨a, b, hamem, hbmem, hab⟩ := collapse_two d h2
    rw [if_pos hb]
    dsimp only
    rw [hab, intercalate_pair]
    have haP := mem_splitOnChar_part '.' d a hamem
    have hbP := mem_splitOnChar_part '.' d b hbmem
    refine ⟨by simp, ?_, ?_, ?_⟩
    · intro c hc
      rcases List.mem_append.mp hc with h | h
      · exact hlc c (haP c h).1
      · rcases List.mem_cons.mp h with rfl | h
        · decide
        · exact hlc c (hbP c h).1
    · intro hc
      rcases List.mem_append.mp hc with h | h
      · exact hsl (haP _ h).1
      · rcases List.mem_cons.mp h with hq | h
        · exact absurd hq (by decide)
        · exact hsl (hbP _ h).1
    · rw [List.count_append, List.count_cons]
      have ha0 : a.count '.' = 0 := List.count_eq_zero.mpr (fun hc => (haP _ hc).2 rfl)
      have hb0 : b.count '.' = 0 := List.count_eq_zero.mpr (fun hc => (hbP _ hc).2 rfl)
      simp [ha0, hb0]
  · rw [if_neg hb]
    have hcnt : d.count '.' ≤ 1 := by
      by_contra hcon
      exact hb (by simp; omega)
    exact ⟨hde, hlc, hsl, hcnt⟩

lemma cutd_props (s : Str) :
    (∀ c ∈ trim ((splitOnChar '/' (stripWww (stripScheme (lower (trim s))))).headD []),
      lowerChar c = c)
    ∧ '/' ∉ trim ((splitOnChar '/' (stripWww (stripScheme (lower (trim s))))).headD []) := by
  constructor
  · intro c hc
    have h1 := mem_trim hc
    have h2 := (mem_split_head h1).1
    have h3 := mem_stripWww h2
    have h4 := mem_stripScheme h3
    exact lc_lower _ c h4
  · intro hc
    exact (mem_split_head (mem_trim hc)).2 rfl

lemma normalize_some_props (x : Cell) (y : Str)
    (h : App.normalize_domain true x = some y) :
    y ≠ [] ∧ (∀ c ∈ y, lowerChar c = c) ∧ '/' ∉ y ∧ y.count '.' ≤ 1 := by
  cases x with
  | none => simp [App.normalize_domain] at h
  | some s =>
    unfold App.normalize_domain at h
    dsimp only at h
    by_cases hse : s.isEmpty = true
    · simp [hse] at h
    · rw [if_neg hse] at h
      by_cases hde : (trim ((splitOnChar '/' (stripWww (stripScheme
          (lower (trim s))))).headD [])).isEmpty = true
      · rw [if_pos hde] at h
        cases h
      · rw [if_neg hde] at h
        have hy : collapseIfRequested true (trim ((splitOnChar '/' (stripWww (stripScheme
            (lower (trim s))))).headD [])) = y := Option.some.inj h
        have hprops := cutd_props s
        have hdne : trim ((splitOnChar '/' (stripWww (stripScheme
            (lower (trim s))))).headD []) ≠ [] := by
          intro hE
          rw [hE] at hde
          exact hde rfl
        have hall := collapse_result_props _ hdne hprops.1 hprops.2
        rw [hy] at hall
        exact hall

lemma hasPre_mem (p s : Str) (h : hasPre p s = true) : ∀ c ∈ p, c ∈ s := by
  induction p generalizing s with
  | nil => simp
  | cons a q ih =>
    cases s with
    | nil => simp [hasPre] at h
    | cons b t =>
      unfold hasPre at h
      rw [Bool.and_eq_true] at h
      obtain ⟨hab, hq⟩ := h
      have habe : a = b := by simpa using hab
      intro c hc
      rcases List.mem_cons.mp hc with rfl | hcq
      · exact habe ▸ List.mem_cons_self b t
      · exact List.mem_cons_of_mem b (ih t hq c hcq)

lemma takeWhile_all_eq (p : Char → Bool) (l : Str) (h : ∀ c ∈ l, p c = true) :
    l.takeWhile p = l :=
  List.takeWhile_eq_self_iff.mpr h

lemma normalize_fixed (y : Str) (hne : y ≠ []) (hlc : ∀ c ∈ y, lowerChar c = c)
    (hsl : '/' ∉ y) (hcnt : y.count '.' ≤ 1) (htr : trim y = y)
    (hww : hasPre (lit "www.") y = false) :
    App.normalize_domain true (some y) = some y := by
  have hyE : y.isEmpty = false := by
    cases hE : y.isEmpty
    · rfl
    · exact absurd (List.isEmpty_iff.mp hE) hne
  have h1 : lower (trim y) = y := by
    rw [htr]
    exact lower_fixed_of y hlc
  have hh1 : hasPre (lit "http://") y = false := by
    cases hE : hasPre (lit "http://") y
    · rfl
    · exact absurd (hasPre_mem _ y hE '/' (by decide)) hsl
  have hh2 : hasPre (lit "https://") y = false := by
    cases hE : hasPre (lit "https://") y
    · rfl
    · exact absurd (hasPre_mem _ y hE '/' (by decide)) hsl
  have h2 : stripScheme y = y := by
    unfold stripScheme
    rw [hh1, hh2]
    simp
  have h3 : stripWww y = y := by
    unfold stripWww
    rw [hww]
    simp
  have h4 : (splitOnChar '/' y).headD [] = y := by
    rw [split_head_eq]
    refine takeWhile_all_eq _ _ (fun c hc => ?_)
    have : c ≠ '/' := fun hcs => hsl (hcs ▸ hc)
    simpa using this
  have h5 : collapseIfRequested true y = y := by
    unfold collapseIfRequested
    have : (true && decide (2 ≤ y.count '.')) = false := by
      simp
      omega
    rw [this]
    simp
  unfold App.normalize_domain
  dsimp only
  rw [hyE]
  simp only [Bool.false_eq_true, if_false]
  rw [h1, h2, h3, h4, htr, hyE]
  simp only [Bool.false_eq_true, if_false, h5]

/-- Claim C2 (amended): with the default collapse setting, the executed
normalize_domain is idempotent on every input whose result is a trimmed string
that does not start with the label www. (and on every input whose result is
absent).  Idempotence fails in general: collapsing to the last two labels can
surface a leading www. label or interior whitespace into the result, which a
second application then strips again. -/
theorem claim_C2_amended :
    (∀ x : Cell, App.normalize_domain true x = none →
      App.normalize_domain true (App.normalize_domain true x) = App.normalize_domain true x)
    ∧ (∀ (x : Cell) (y : Str), App.normalize_domain true x = some y →
      trim y = y → hasPre (lit "www.") y = false →
      App.normalize_domain true (App.normalize_domain true x) = App.normalize_domain true x) := by
  constructor
  · intro x hx
    rw [hx]
    rfl
  · intro x y hx htr hww
    obtain ⟨hne, hlc, hsl, hcnt⟩ := normalize_some_props x y hx
    rw [hx]
    exact normalize_fixed y hne hlc hsl hcnt htr hww

/-- Witness for claim C2 at a concrete input whose result is trimmed and not
www-led. -/
theorem claim_C2_amended_witness :
    App.normalize_domain true (App.normalize_domain true (some (lit "mail.eu.acme.com")))
      = App.normalize_domain true (some (lit "mail.eu.acme.com")) :=
  claim_C2_amended.2 (some (lit "mail.eu.acme.com")) (lit "acme.com")
    (by decide) (by decide) (by decide)

/-- Counterexample to claim C2 as stated: the subdomain collapse of
a.www.com yields www.com, whose renormalization strips the surfaced www.
label, so normalize_domain is not idempotent on all inputs. -/
theorem claim_C2_counterexample :
    App.normalize_domain true (App.normalize_domain true (some (lit "a.www.com")))
      ≠ App.normalize_domain true (some (lit "a.www.com")) := by
  decide

/-! ## Trim algebra for the truncation pipeline -/

lemma dropWhile_idem {α : Type} (p : α → Bool) : ∀ l : List α,
    (l.dropWhile p).dropWhile p = l.dropWhile p := by
  intro l
  induction l with
  | nil => rfl
  | cons c t ih =>
    by_cases h : p c = true
    · simp [List.dropWhile_cons, h, ih]
    · simp [List.dropWhile_cons, h]

lemma trimL_trimL (l : Str) : trimL (trimL l) = trimL l :=
  dropWhile_idem pySpace l

lemma trimR_cons (c : Char) (t : Str) :
    trimR (c :: t) =
      if trimR t = [] then (if pySpace c = true then [] else [c]) else c :: trimR t := by
  unfold trimR
  rw [List.reverse_cons, List.dropWhile_append]
  by_cases h : (t.reverse.dropWhile pySpace).isEmpty = true
  · rw [if_pos h]
    have ht : (t.reverse.dropWhile pySpace).reverse = [] := by
      rw [List.isEmpty_iff.mp h]
      rfl
    rw [if_pos ht]
    by_cases hc : pySpace c = true
    · simp [List.dropWhile_cons, hc]
    · simp [List.dropWhile_cons, hc]
  · rw [if_neg h]
    have ht : ¬ (t.reverse.dropWhile pySpace).reverse = [] := by
      rw [List.reverse_eq_nil_iff]
      intro hE
      exact h (by rw [hE]; rfl)
    rw [if_neg ht]
    rw [List.reverse_append]
    simp

lemma trimR_trimR (l : Str) : trimR (trimR l) = trimR l := by
  unfold trimR
  rw [List.reverse_reverse, dropWhile_idem]

lemma trimLR_comm : ∀ l : Str, trimL (trimR l) = trimR (trimL l) := by
  intro l
  induction l with
  | nil => rfl
  | cons c t ih =>
    by_cases hc : pySpace c = true
    · have hL : trimL (c :: t) = trimL t := by simp [trimL, List.dropWhile_cons, hc]
      rw [trimR_cons, hL]
      by_cases he : trimR t = []
      · rw [if_pos he, if_pos hc, ← ih, he]
      · rw [if_neg he]
        have hstep : trimL (c :: trimR t) = trimL (trimR t) := by
          simp [trimL, List.dropWhile_cons, hc]
        rw [hstep, ih]
    · have hL : trimL (c :: t) = c :: t := by simp [trimL, List.dropWhile_cons, hc]
      rw [trimR_cons, hL]
      by_cases he : trimR t = []
      · rw [if_pos he, if_neg hc, trimR_cons, if_pos he, if_neg hc]
        simp [trimL, List.dropWhile_cons, hc]
      · rw [if_neg he, trimR_cons, if_neg he]
        simp [trimL, List.dropWhile_cons, hc]

lemma trim_trimL (l : Str) : trim (trimL l) = trim l := by
  unfold trim
  rw [show trimR (trimL l) = trimL (trimR l) from (trimLR_comm l).symm, trimL_trimL]

lemma trim_trim (l : Str) : trim (trim l) = trim l := by
  unfold trim
  rw [show trimR (trimL (trimR l)) = trimL (trimR (trimR l)) from (trimLR_comm (trimR l)).symm,
    trimR_trimR, trimL_trimL]

lemma takeWhile_trimL_comm (q : Char → Bool) (hq : ∀ c, pySpace c = true → q c = true) :
    ∀ l : Str, (trimL l).takeWhile q = trimL (l.takeWhile q) := by
  intro l
  induction l with
  | nil => rfl
  | cons c t ih =>
    by_cases hc : pySpace c = true
    · have hqc := hq c hc
      have h1 : trimL (c :: t) = trimL t := by simp [trimL, List.dropWhile_cons, hc]
      have h2 : (c :: t).takeWhile q = c :: t.takeWhile q := by
        rw [List.takeWhile_cons, if_pos hqc]
      have h3 : trimL (c :: t.takeWhile q) = trimL (t.takeWhile q) := by
        simp [trimL, List.dropWhile_cons, hc]
      rw [h1, h2, h3, ih]
    · have h1 : trimL (c :: t) = c :: t := by simp [trimL, List.dropWhile_cons, hc]
      rw [h1]
      by_cases hqc : q c = true
      · rw [List.takeWhile_cons, if_pos hqc]
        have h3 : trimL (c :: t.takeWhile q) = c :: t.takeWhile q := by
          simp [trimL, List.dropWhile_cons, hc]
        rw [h3]
      · rw [List.takeWhile_cons, if_neg hqc]
        rfl

lemma trimR_decomp (l : Str) :
    ∃ s, l = trimR l ++ s ∧ ∀ c ∈ s, pySpace c = true := by
  refine ⟨(l.reverse.takeWhile pySpace).reverse, ?_, ?_⟩
  · conv_lhs => rw [← List.reverse_reverse l,
      ← List.takeWhile_append_dropWhile pySpace l.reverse]
    rw [List.reverse_append]
    rfl
  · intro c hc
    rw [List.mem_reverse] at hc
    exact List.mem_takeWhile_imp hc

lemma dropWhile_all_nil (p : Char → Bool) : ∀ l : Str, (∀ c ∈ l, p c = true) →
    l.dropWhile p = [] := by
  intro l
  induction l with
  | nil => intro; rfl
  | cons c t ih =>
    intro h
    rw [List.dropWhile_cons, if_pos (h c (List.mem_cons_self c t))]
    exact ih (fun x hx => h x (List.mem_cons_of_mem c hx))

lemma trim_append_spaces (x s : Str) (h : ∀ c ∈ s, pySpace c = true) :
    trim (x ++ s) = trim x := by
  unfold trim
  have hR : trimR (x ++ s) = trimR x := by
    unfold trimR
    rw [List.reverse_append, List.dropWhile_append]
    have hs : s.reverse.dropWhile pySpace = [] :=
      dropWhile_all_nil _ _ (fun c hc => h c (List.mem_reverse.mp hc))
    rw [hs]
    simp
  rw [hR]

lemma takeWhile_length_eq_self (q : Char → Bool) : ∀ m : Str,
    (m.takeWhile q).length = m.length → m.takeWhile q = m := by
  intro m
  induction m with
  | nil => intro; rfl
  | cons c t ih =>
    intro h
    by_cases hc : q c = true
    · rw [List.takeWhile_cons, if_pos hc] at h ⊢
      simp only [List.length_cons] at h
      rw [ih (by omega)]
    · rw [List.takeWhile_cons, if_neg hc] at h
      simp at h

lemma cut_trimR (q : Char → Bool) (hq : ∀ c, pySpace c = true → q c = true) (l : Str) :
    trim ((trimR l).takeWhile q) = trim (l.takeWhile q) := by
  obtain ⟨s, hdecomp, hs⟩ := trimR_decomp l
  conv_rhs => rw [hdecomp]
  rw [List.takeWhile_append]
  by_cases hl : ((trimR l).takeWhile q).length = (trimR l).length
  · rw [if_pos hl]
    have heq : (trimR l).takeWhile q = trimR l := takeWhile_length_eq_self _ _ hl
    have hsq : s.takeWhile q = s := takeWhile_all_eq _ _ (fun c hc => hq c (hs c hc))
    rw [heq, hsq, trim_append_spaces _ s hs]
  · rw [if_neg hl]

lemma cut_trim (q : Char → Bool) (hq : ∀ c, pySpace c = true → q c = true) (l : Str) :
    trim ((trim l).takeWhile q) = trim (l.takeWhile q) := by
  have h1 : (trim l).takeWhile q = trimL ((trimR l).takeWhile q) := by
    unfold trim
    rw [takeWhile_trimL_comm q hq]
  rw [h1, trim_trimL]
  exact cut_trimR q hq l

lemma takeWhile_congr2 (p q : Char → Bool) (h : ∀ c, p c = q c) : ∀ l : Str,
    l.takeWhile p = l.takeWhile q := by
  intro l
  induction l with
  | nil => rfl
  | cons c t ih =>
    rw [List.takeWhile_cons, List.takeWhile_cons, h c, ih]

lemma pySpace_ne_cut (t : Char) (ht : pySpace t = false) :
    ∀ c, pySpace c = true → (c != t) = true := by
  intro c hc
  simp only [bne_iff_ne, ne_eq]
  intro hct
  rw [hct, ht] at hc
  cases hc

lemma cut3_eq (d : Str) :
    trim ((splitOnChar '#' (trim ((splitOnChar '?' (trim ((splitOnChar '/' d).headD
        []))).headD []))).headD [])
    = trim (d.takeWhile (fun c => !(c == '/' || c == '?' || c == '#'))) := by
  rw [split_head_eq, split_head_eq, split_head_eq]
  rw [cut_trim _ (pySpace_ne_cut '?' (by decide))]
  rw [cut_trim _ (pySpace_ne_cut '#' (by decide))]
  rw [List.takeWhile_takeWhile, List.takeWhile_takeWhile]
  refine congrArg trim (takeWhile_congr2 _ _ (fun c => ?_) d)
  by_cases h1 : c = '/' <;> by_cases h2 : c = '?' <;> by_cases h3 : c = '#' <;>
    simp [h1, h2, h3]

lemma collapse_ne_nil (cl : Bool) (d : Str) (hd : d ≠ []) :
    collapseIfRequested cl d ≠ [] := by
  unfold collapseIfRequested
  by_cases hb : (cl && decide (2 ≤ d.count '.')) = true
  · rw [if_pos hb]
    dsimp only
    have h2 : 2 ≤ d.count '.' := by
      rw [Bool.and_eq_true] at hb
      exact of_decide_eq_true hb.2
    obtain ⟨a, b, _, _, hab⟩ := collapse_two d h2
    rw [hab, intercalate_pair]
    simp
  · rw [if_neg hb]
    exact hd

/-- Claim C3 (amended): the loaders normalize_domain lowercases and trims,
strips a leading scheme and a leading www. label, truncates at the first
slash, question mark or hash sign (the truncated remainder trimmed), returns
absent iff the result is empty, and then collapses subdomains when requested:
it coincides extensionally with the one-step truncation pipeline written from
the spec's words.  The executed app.py variant truncates only at the first
slash (see the counterexample). -/
theorem claim_C3_amended (collapse : Bool) (x : Cell) :
    NL.normalize_domain collapse x = SpecRef.normalizeDomain collapse x := by
  cases x with
  | none => rfl
  | some s =>
    unfold NL.normalize_domain SpecRef.normalizeDomain
    dsimp only
    by_cases h0 : (lower (trim s)).isEmpty = true
    · rw [List.isEmpty_iff.mp h0]
      rfl
    · rw [if_neg h0]
      rw [cut3_eq (stripWww (stripScheme (lower (trim s))))]
      by_cases hdd : (trim ((stripWww (stripScheme (lower (trim s)))).takeWhile
          (fun c => !(c == '/' || c == '?' || c == '#')))).isEmpty = true
      · rw [if_pos hdd, if_pos hdd]
      · rw [if_neg hdd, if_neg hdd]
        have hne : collapseIfRequested collapse (trim ((stripWww (stripScheme
            (lower (trim s)))).takeWhile
              (fun c => !(c == '/' || c == '?' || c == '#')))) ≠ [] := by
          refine collapse_ne_nil collapse _ ?_
          intro hE
          rw [hE] at hdd
          exact hdd rfl
        have hcE : (collapseIfRequested collapse (trim ((stripWww (stripScheme
            (lower (trim s)))).takeWhile
              (fun c => !(c == '/' || c == '?' || c == '#'))))).isEmpty = false := by
          cases hq : (collapseIfRequested collapse (trim ((stripWww (stripScheme
              (lower (trim s)))).takeWhile
                (fun c => !(c == '/' || c == '?' || c == '#'))))).isEmpty
          · rfl
          · exact absurd (List.isEmpty_iff.mp hq) hne
        rw [hcE]
        simp

/-- Counterexample to claim C3 as stated: the executed normalize_domain (the
app.py copy, which shadows the imported one) does not truncate at the first
question mark; on acme.com?x=1 it keeps the query text instead of returning
acme.com. -/
theorem claim_C3_counterexample :
    App.normalize_domain true (some (lit "acme.com?x=1")) = some (lit "acme.com?x=1")
    ∧ some (lit "acme.com?x=1") ≠ some (lit "acme.com") := by
  constructor
  · decide
  · decide

lemma not_mem_lower (t : Char) (ht : t.toNat < 97 ∨ 122 < t.toNat) (s : Str)
    (h : t ∉ s) : t ∉ lower s := by
  intro hc
  obtain ⟨c0, hc0, heq⟩ := List.mem_map.mp hc
  exact h ((lowerChar_eq_low c0 t ht heq) ▸ hc0)

/-- Claim C10 (amended): the two extract_email_domain implementations agree on
every input except those whose segment after the last at-sign strips to empty,
where the executed app.py copy returns the empty-string domain and the loaders
copy returns absent; the two normalize_domain implementations agree, for every
collapse setting, on every absent input and on every string containing neither
a question mark nor a hash sign (the app.py copy truncates only at the first
slash, the loaders copy also at the first question mark and hash sign). -/
theorem claim_C10_amended :
    (∀ e : Cell, App.extract_email_domain e = NL.extract_email_domain e ∨
      (App.extract_email_domain e = some [] ∧ NL.extract_email_domain e = none))
    ∧ (∀ collapse : Bool,
        App.normalize_domain collapse none = NL.normalize_domain collapse none)
    ∧ (∀ (collapse : Bool) (x : Str), '?' ∉ x → '#' ∉ x →
        App.normalize_domain collapse (some x) = NL.normalize_domain collapse (some x)) := by
  refine ⟨?_, fun _ => rfl, ?_⟩
  · intro e
    cases e with
    | none => exact Or.inl rfl
    | some s =>
      unfold App.extract_email_domain NL.extract_email_domain
      dsimp only
      by_cases hat : '@' ∈ lower (trim s)
      · rw [if_pos hat, if_pos hat]
        have hlen : ¬ (splitOnChar '@' (lower (trim s))).length < 2 := by
          rw [splitOnChar_length]
          have : 0 < (lower (trim s)).count '@' := List.count_pos_iff.mpr hat
          omega
        rw [if_neg hlen]
        by_cases hdom : (trim ((splitOnChar '@' (lower (trim s))).getLastD [])).isEmpty = true
        · right
          constructor
          · rw [List.isEmpty_iff.mp hdom]
          · rw [if_pos hdom]
        · left
          rw [if_neg hdom]
      · rw [if_neg hat, if_neg hat]
        exact Or.inl rfl
  · intro collapse x hqx hhx
    unfold App.normalize_domain NL.normalize_domain
    dsimp only
    by_cases hxe : x.isEmpty = true
    · rw [if_pos hxe, List.isEmpty_iff.mp hxe]
      rfl
    · rw [if_neg hxe]
      by_cases hde : (lower (trim x)).isEmpty = true
      · rw [if_pos hde, List.isEmpty_iff.mp hde]
        rfl
      · rw [if_neg hde]
        have hqD : '?' ∉ stripWww (stripScheme (lower (trim x))) := by
          intro hc
          exact not_mem_lower '?' (Or.inl (by decide)) (trim x)
            (fun hm => hqx (mem_trim hm)) (mem_stripScheme (mem_stripWww hc))
        have hhD : '#' ∉ stripWww (stripScheme (lower (trim x))) := by
          intro hc
          exact not_mem_lower '#' (Or.inl (by decide)) (trim x)
            (fun hm => hhx (mem_trim hm)) (mem_stripScheme (mem_stripWww hc))
        have hqA : '?' ∉ trim ((splitOnChar '/' (stripWww (stripScheme
            (lower (trim x))))).headD []) := by
          intro hc
          exact hqD ((mem_split_head (mem_trim hc)).1)
        have hhA : '#' ∉ trim ((splitOnChar '/' (stripWww (stripScheme
            (lower (trim x))))).headD []) := by
          intro hc
          exact hhD ((mem_split_head (mem_trim hc)).1)
        have htrA : trim (trim ((splitOnChar '/' (stripWww (stripScheme
            (lower (trim x))))).headD []))
            = trim ((splitOnChar '/' (stripWww (stripScheme (lower (trim x))))).headD []) :=
          trim_trim _
        have hcutq : (splitOnChar '?' (trim ((splitOnChar '/' (stripWww (stripScheme
            (lower (trim x))))).headD []))).headD []
            = trim ((splitOnChar '/' (stripWww (stripScheme (lower (trim x))))).headD []) := by
          rw [split_head_eq]
          refine takeWhile_all_eq _ _ (fun c hc => ?_)
          have : c ≠ '?' := fun hcs => hqA (hcs ▸ hc)
          simpa using this
        rw [hcutq, htrA]
        have hcuth : (splitOnChar '#' (trim ((splitOnChar '/' (stripWww (stripScheme
            (lower (trim x))))).headD []))).headD []
            = trim ((splitOnChar '/' (stripWww (stripScheme (lower (trim x))))).headD []) := by
          rw [split_head_eq]
          refine takeWhile_all_eq _ _ (fun c hc => ?_)
          have : c ≠ '#' := fun hcs => hhA (hcs ▸ hc)
          simpa using this
        rw [hcuth, htrA]
        by_cases hAe : (trim ((splitOnChar '/' (stripWww (stripScheme
            (lower (trim x))))).headD [])).isEmpty = true
        · rw [if_pos hAe, if_pos hAe]
        · rw [if_neg hAe, if_neg hAe]
          have hne : collapseIfRequested collapse (trim ((splitOnChar '/' (stripWww
              (stripScheme (lower (trim x))))).headD [])) ≠ [] := by
            refine collapse_ne_nil collapse _ ?_
            intro hE
            rw [hE] at hAe
            exact hAe rfl
          have hcE : (collapseIfRequested collapse (trim ((splitOnChar '/' (stripWww
              (stripScheme (lower (trim x))))).headD []))).isEmpty = false := by
            cases hq : (collapseIfRequested collapse (trim ((splitOnChar '/' (stripWww
                (stripScheme (lower (trim x))))).headD []))).isEmpty
            · rfl
            · exact absurd (List.isEmpty_iff.mp hq) hne
          rw [hcE]
          simp

/-- Witness for claim C10 at concrete inputs: a well-formed email and a plain
domain string without question mark or hash sign. -/
theorem claim_C10_amended_witness :
    (App.extract_email_domain (some (lit "a@b.com")) =
        NL.extract_email_domain (some (lit "a@b.com")) ∨
      (App.extract_email_domain (some (lit "a@b.com")) = some [] ∧
        NL.extract_email_domain (some (lit "a@b.com")) = none))
    ∧ App.normalize_domain true (some (lit "www.Acme.com"))
        = NL.normalize_domain true (some (lit "www.Acme.com")) :=
  ⟨claim_C10_amended.1 (some (lit "a@b.com")),
   claim_C10_amended.2.2 true (lit "www.Acme.com") (by decide) (by decide)⟩

/-- Counterexample to claim C10 as stated: on the email a followed by a bare
at-sign, the executed app.py extract_email_domain returns the empty-string
domain while the loaders copy returns absent, so the two implementations are
not extensionally equal. -/
theorem claim_C10_counterexample :
    App.extract_email_domain (some (lit "a@")) = some []
    ∧ NL.extract_email_domain (some (lit "a@")) = none
    ∧ (some ([] : Str) : Cell) ≠ (none : Cell) := by
  refine ⟨by decide, by decide, by decide⟩
